import Mathlib

/-!
Shallow embedding of the SYCLOP meta-planner core (ompl::control::Syclop.cpp),
translated from the C++ source.  C++ doubles are modelled as rationals, the
pseudo-random draws consumed by the planner are passed in explicitly, and the
motions of the low-level tree are represented by integer motion identifiers.
The boost adjacency-list graph is modelled by a list of regions indexed by the
dense region index together with an association list mapping ordered region
pairs to their Adjacency payload (the regionsToEdge_ map).
-/

namespace Syclop

/-- DBL_EPSILON (2^-52), the floor applied to a region's estimated free volume
in setupRegionEstimates. -/
def eps : ℚ := 1 / 2 ^ 52

/-- Per-region payload of the decomposition graph (struct Syclop::Region).
covGridCells models the std::set of coverage-grid cells (kept duplicate-free
by guarded insertion); motions holds the identifiers of the tree motions whose
states reside in this region, in push_back order. -/
structure Region where
  index : Nat
  volume : ℚ
  percentValidCells : ℚ
  freeVolume : ℚ
  numSelections : Nat
  covGridCells : List Nat
  motions : List Nat
  alpha : ℚ
  weight : ℚ
  deriving DecidableEq, Repr

/-- Default Region matching Syclop::initRegion (numSelections 0, volume 1,
percentValidCells 1, freeVolume 1). -/
instance : Inhabited Region :=
  ⟨{ index := 0, volume := 1, percentValidCells := 1, freeVolume := 1,
     numSelections := 0, covGridCells := [], motions := [], alpha := 1, weight := 1 }⟩

/-- Per-edge payload of the decomposition graph (struct Syclop::Adjacency).
The source/target Region pointers are modelled by the region indices. -/
structure Adjacency where
  sourceIndex : Nat
  targetIndex : Nat
  cost : ℚ
  empty : Bool
  numSelections : Nat
  numLeadInclusions : Nat
  covGridCells : List Nat
  deriving DecidableEq, Repr

/-- The decomposition graph: the region payloads indexed by region index, and
the regionsToEdge_ association from ordered index pairs to Adjacency. -/
structure GraphState where
  regions : List Region
  adjacencies : List ((Nat × Nat) × Adjacency)
  deriving DecidableEq, Repr

/-- graph_[boost::vertex(i, graph_)] as a read. -/
def regionAt (g : GraphState) (i : Nat) : Region :=
  g.regions.getD i default

/-- Writing back the payload of region i. -/
def setRegion (g : GraphState) (i : Nat) (r : Region) : GraphState :=
  { g with regions := g.regions.set i r }

/-- graph_[...].motions.push_back(mid). -/
def pushMotion (g : GraphState) (i : Nat) (mid : Nat) : GraphState :=
  setRegion g i { regionAt g i with motions := (regionAt g i).motions ++ [mid] }

/-- Lookup in the regionsToEdge_ map. -/
def findAdj (g : GraphState) (u v : Nat) : Option Adjacency :=
  (g.adjacencies.find? (fun p => p.1.1 == u && p.1.2 == v)).map Prod.snd

/-- Writing back the payload of the (u, v) adjacency. -/
def setAdj (g : GraphState) (u v : Nat) (a : Adjacency) : GraphState :=
  { g with adjacencies :=
      g.adjacencies.map (fun p => if p.1.1 == u && p.1.2 == v then (p.1, a) else p) }

/-- Syclop::updateRegion: recompute the derived scalars alpha and weight from
freeVolume, covGridCells and numSelections (lines 252-257 of the source). -/
def updateRegion (r : Region) : Region :=
  let f : ℚ := r.freeVolume * r.freeVolume * r.freeVolume * r.freeVolume
  { r with
    alpha := 1 / ((1 + (r.covGridCells.length : ℚ)) * f),
    weight := f / ((1 + (r.covGridCells.length : ℚ)) *
                   (1 + (r.numSelections : ℚ) * (r.numSelections : ℚ))) }

/-- The alpha formula as the specification states it: with f = freeVolume^4 and
c = 1 + |covGridCells|, alpha = 1 / (c * f). -/
def specAlpha (r : Region) : ℚ :=
  1 / ((1 + (r.covGridCells.length : ℚ)) * r.freeVolume ^ 4)

/-- The weight formula as the specification states it: with f = freeVolume^4,
c = 1 + |covGridCells| and s = numSelections, weight = f / (c * (1 + s^2)). -/
def specWeight (r : Region) : ℚ :=
  r.freeVolume ^ 4 /
    ((1 + (r.covGridCells.length : ℚ)) * (1 + (r.numSelections : ℚ) ^ 2))

/-- Syclop::updateCoverageEstimate: if the coverage cell of the state is new
for the region, insert it, recompute derived scalars and report improvement
(lines 290-298). -/
def updateCoverageEstimate (g : GraphState) (i : Nat) (cell : Nat) :
    GraphState × Bool :=
  let r := regionAt g i
  if cell ∈ r.covGridCells then (g, false)
  else (setRegion g i (updateRegion { r with covGridCells := r.covGridCells ++ [cell] }), true)

/-- Type of pluggable edge-cost factors (EdgeCostFactorFn); a factor reads the
current graph and the two region indices.  The factors in the source can
dereference a missing regionsToEdge_ entry, which is modelled by Option. -/
abbrev EdgeCostFactorFn : Type := GraphState → Nat → Nat → Option ℚ

/-- Product of all registered cost factors, starting from cost = 1.0
(the loop body of Syclop::updateEdge, lines 282-287). -/
def applyFactors (fs : List EdgeCostFactorFn) (g : GraphState) (u v : Nat) : Option ℚ :=
  fs.foldl (fun acc fac => acc.bind (fun c => (fac g u v).map (fun x => c * x))) (some 1)

/-- Syclop::updateEdge on the adjacency stored at (u, v): set its cost to the
product of the registered factors. -/
def updateEdgeAt (fs : List EdgeCostFactorFn) (g : GraphState) (u v : Nat) :
    Option GraphState :=
  match findAdj g u v with
  | some a => (applyFactors fs g u v).map (fun c => setAdj g u v { a with cost := c })
  | none => none

/-- Syclop::defaultEdgeCost (lines 481-489): with nsel = numLeadInclusions when
the edge is empty and numSelections otherwise, the factor is
(1 + nsel*nsel) / (1 + |covGridCells|*|covGridCells|) times the product of the
source and target region alphas. -/
def defaultEdgeCost (g : GraphState) (r s : Nat) : Option ℚ :=
  (findAdj g r s).map (fun a =>
    let nsel : Nat := if a.empty then a.numLeadInclusions else a.numSelections
    ((1 + (nsel : ℚ) * (nsel : ℚ)) /
        (1 + (a.covGridCells.length : ℚ) * (a.covGridCells.length : ℚ))) *
      ((regionAt g a.sourceIndex).alpha * (regionAt g a.targetIndex).alpha))

/-- The default factor as installed by Syclop::setup. -/
def defaultEdgeCostFn : EdgeCostFactorFn := fun g r s => defaultEdgeCost g r s

/-- Syclop::addEdgeCostFactor: push_back onto the factor list. -/
def addEdgeCostFactor (fs : List EdgeCostFactorFn) (f : EdgeCostFactorFn) :
    List EdgeCostFactorFn :=
  fs ++ [f]

/-- Syclop::clearEdgeCostFactors: edgeCostFactors_.clear() - removes every
factor, the default one included (lines 206-209). -/
def clearEdgeCostFactors (_fs : List EdgeCostFactorFn) : List EdgeCostFactorFn :=
  []

/-- The factor list right after Syclop::setup, which registers exactly the
default factor (line 52). -/
def setupEdgeCostFactors : List EdgeCostFactorFn :=
  addEdgeCostFactor [] defaultEdgeCostFn

/-- The default edge cost written the way the specification states it:
((1 + n^2) / (1 + |covGridCells|^2)) * alpha_source * alpha_target with
n = numLeadInclusions if empty else numSelections. -/
def specDefaultEdgeCost (g : GraphState) (a : Adjacency) : ℚ :=
  let n : ℚ := if a.empty then (a.numLeadInclusions : ℚ) else (a.numSelections : ℚ)
  ((1 + n ^ 2) / (1 + (a.covGridCells.length : ℚ) ^ 2)) *
    ((regionAt g a.sourceIndex).alpha * (regionAt g a.targetIndex).alpha)

/-- Syclop::updateConnectionEstimate (lines 300-309): on the (c, d) adjacency,
if the coverage cell is new insert it, recompute the edge cost and report
improvement.  Accessing a pair absent from regionsToEdge_ default-constructs an
Adjacency whose region pointers are null and is then dereferenced by the
default cost factor, which is modelled as failure (none). -/
def updateConnectionEstimate (fs : List EdgeCostFactorFn) (g : GraphState)
    (c d : Nat) (cell : Nat) : Option (GraphState × Bool) :=
  match findAdj g c d with
  | none => none
  | some a =>
    if cell ∈ a.covGridCells then some (g, false)
    else
      let g1 := setAdj g c d { a with covGridCells := a.covGridCells ++ [cell] }
      (updateEdgeAt fs g1 c d).map (fun g2 => (g2, true))

/-- The data the planner loop reads off one motion produced by
selectAndExtend: a fresh identifier, the region and coverage cell in which its
state lies (decomp_->locateRegion and covGrid_.locateRegion), and the result
of goal->isSatisfied on its state. -/
structure MotionInfo where
  mid : Nat
  stateRegion : Nat
  stateCovCell : Nat
  goalSat : Bool
  dist : ℚ
  deriving DecidableEq, Repr

/-- The mutable state threaded through the region-expansion loop of
Syclop::solve.  availDist_ is modelled from the spec as the list of
(key, weight) entries in insertion order (the DiscreteDistribution header is
not part of the sources); goalDist = none models +infinity. -/
structure LoopState where
  graph : GraphState
  availDist : List (Nat × ℚ)
  solved : Bool
  solution : Option Nat
  goalDist : Option ℚ
  numMotions : Nat
  improved : Bool
  deriving DecidableEq, Repr

/-- Lines 148-153 of the source: track the best approximate solution seen. -/
def trackApprox (st : LoopState) (m : MotionInfo) : LoopState :=
  match st.goalDist with
  | none => { st with goalDist := some m.dist, solution := some m.mid }
  | some d =>
    if m.dist < d then { st with goalDist := some m.dist, solution := some m.mid }
    else st

/-- Lines 161-163 of the source: if the new motion is the first motion of the
region it entered, add that region to availDist with its current weight. -/
def availPhase (st2 : LoopState) (newRegion : Nat) : LoopState :=
  if (regionAt st2.graph newRegion).motions.length = 1 then
    { st2 with availDist :=
        st2.availDist ++ [(newRegion, (regionAt st2.graph newRegion).weight)] }
  else st2

/-- Lines 166-172 of the source: when (region, newRegion) is an edge of the
decomposition graph, mark its adjacency non-empty, bump its numSelections and
fold the connection-estimate improvement into the improved flag. -/
def adjacencyPhase (fs : List EdgeCostFactorFn) (region newRegion cell : Nat)
    (st3 : LoopState) : Option LoopState :=
  match findAdj st3.graph region newRegion with
  | none => some st3
  | some a =>
    let g3 := setAdj st3.graph region newRegion
      { a with empty := false, numSelections := a.numSelections + 1 }
    (updateConnectionEstimate fs g3 region newRegion cell).map
      (fun p => { st3 with graph := p.1, improved := st3.improved || p.2 })

/-- Lines 154-173 of the source, for a motion that does not satisfy the goal:
append it to the motions list of the region its state resides in, bump
numMotions, update the coverage estimate; when the state lies outside the
selected region, run the availDist and adjacency updates. -/
def placeMotion (fs : List EdgeCostFactorFn) (region : Nat) (st : LoopState)
    (m : MotionInfo) : Option LoopState :=
  let cov := updateCoverageEstimate (pushMotion st.graph m.stateRegion m.mid)
    m.stateRegion m.stateCovCell
  let st2 : LoopState :=
    { st with graph := cov.1, numMotions := st.numMotions + 1,
              improved := st.improved || cov.2 }
  if m.stateRegion = region then some st2
  else adjacencyPhase fs region m.stateRegion m.stateCovCell (availPhase st2 m.stateRegion)

/-- The inner for-loop of Syclop::solve over the motions returned by
selectAndExtend (lines 136-174): a motion satisfying the goal records the
solution, sets solved and breaks out before the motion is appended to any
region's motions list; every other motion is placed by placeMotion. -/
def processNewMotions (fs : List EdgeCostFactorFn) (region : Nat) :
    LoopState → List MotionInfo → Option LoopState
  | st, [] => some st
  | st, m :: rest =>
    if m.goalSat then
      some { st with solved := true, goalDist := some m.dist, solution := some m.mid }
    else
      (placeMotion fs region (trackApprox st m) m).bind
        (fun st2 => processNewMotions fs region st2 rest)

/-- The walk of Syclop::computeAvailableRegions over the already reversed lead
(lines 469-478): skip regions without motions; a region with motions is added
with its current weight, after which one random draw is consumed and the walk
stops when the draw is at least probKeepAddingToAvail_. -/
def availWalk (g : GraphState) (probKeep : ℚ) (draws : Nat → ℚ) :
    List Nat → Nat → List (Nat × ℚ)
  | [], _ => []
  | r :: rest, k =>
    if (regionAt g r).motions.isEmpty then availWalk g probKeep draws rest k
    else
      (r, (regionAt g r).weight) ::
        (if probKeep ≤ draws k then [] else availWalk g probKeep draws rest (k + 1))

/-- Syclop::computeAvailableRegions (lines 466-479): clear availDist_, then
walk the lead from its goal end (index size-1) down toward index 0. -/
def computeAvailableRegions (g : GraphState) (probKeep : ℚ) (draws : Nat → ℚ)
    (lead : List Nat) : List (Nat × ℚ) :=
  availWalk g probKeep draws lead.reverse 0

/-- Modelled from the spec: DiscreteDistribution::sample (the
DiscreteDistribution header is not among the sources).  Cumulative-weight
inverse-CDF lookup: scan the entries, returning the first key whose weight
bucket contains the target u * totalWeight; sampling does not mutate the
distribution.  None on an empty distribution (spec: empty-sample undefined). -/
def distSampleGo : List (Nat × ℚ) → ℚ → Option Nat
  | [], _ => none
  | (k, w) :: rest, t => if t < w then some k else distSampleGo rest (t - w)

/-- Modelled from the spec: sample(u) over the whole distribution. -/
def distSample (entries : List (Nat × ℚ)) (u : ℚ) : Option Nat :=
  distSampleGo entries (u * (entries.map Prod.snd).sum)

/-- Syclop::selectRegion (lines 457-464): sample a region index from
availDist_, increment that region's numSelections and recompute its derived
scalars; nothing else is touched. -/
def selectRegion (st : LoopState) (u : ℚ) : Option (Nat × LoopState) :=
  (distSample st.availDist u).map (fun idx =>
    let r := regionAt st.graph idx
    let g1 := setRegion st.graph idx (updateRegion { r with numSelections := r.numSelections + 1 })
    (idx, { st with graph := g1 }))

/-- Body of the per-edge update loop at the end of Syclop::computeLead
(lines 448-453): look up the (u, v) adjacency; while it is still empty,
increment numLeadInclusions and recompute its cost.  A missing regionsToEdge_
entry would be default-constructed with null region pointers and dereferenced,
modelled as failure. -/
def leadEdgeStep (fs : List EdgeCostFactorFn) (g : GraphState) (u v : Nat) :
    Option GraphState :=
  match findAdj g u v with
  | none => none
  | some a =>
    if a.empty then
      updateEdgeAt fs (setAdj g u v { a with numLeadInclusions := a.numLeadInclusions + 1 }) u v
    else some g

/-- The loop bound lead_.size()-1 of line 446, computed in 64-bit unsigned
arithmetic as in the source (std::size_t): it underflows to 2^64 - 1 when the
lead is empty. -/
def leadEdgeLoopBound (n : Nat) : Nat :=
  (n + (2 ^ 64 - 1)) % 2 ^ 64

/-- The per-edge update loop of Syclop::computeLead (lines 446-454), iterating
i from the given index while the remaining iteration count is positive; each
iteration reads lead[i] and lead[i+1], an out-of-bounds read being modelled as
failure (none). -/
def updateLeadEdgesGo (fs : List EdgeCostFactorFn) (lead : List Nat) :
    GraphState → Nat → Nat → Option GraphState
  | g, _, 0 => some g
  | g, i, remaining + 1 =>
    match lead.get? i, lead.get? (i + 1) with
    | some u, some v =>
      (leadEdgeStep fs g u v).bind (fun g1 => updateLeadEdgesGo fs lead g1 (i + 1) remaining)
    | _, _ => none

/-- The per-edge update loop of Syclop::computeLead with the source's unsigned
loop bound. -/
def updateLeadEdges (fs : List EdgeCostFactorFn) (g : GraphState) (lead : List Nat) :
    Option GraphState :=
  updateLeadEdgesGo fs lead g 0 (leadEdgeLoopBound lead.length)

/-- Syclop::computeLead (lines 350-455) along the shortest-path branch.
lead_.clear() runs first, discarding the prior lead.  searchFound models the
outcome of the A* search: some p when the search reaches the goal and the
catch block reconstructs the path p from the predecessor map, none when
boost::astar_search completes without throwing found_goal, in which case the
lead stays as cleared (empty).  When startRegion == goalRegion the function
returns early with the singleton lead, skipping the per-edge update loop;
otherwise the per-edge update loop runs on whatever lead resulted. -/
def computeLead (fs : List EdgeCostFactorFn) (g : GraphState)
    (priorLead : List Nat) (startRegion goalRegion : Nat)
    (searchFound : Option (List Nat)) : List Nat × Option GraphState :=
  let _ := priorLead
  if startRegion = goalRegion then ([startRegion], some g)
  else
    let lead := match searchFound with
      | some p => p
      | none => []
    (lead, updateLeadEdges fs g lead)

/-- std::set-style insertion used for the startRegions_ and goalRegions_
region sets. -/
def insertSet (l : List Nat) (x : Nat) : List Nat :=
  if x ∈ l then l else l ++ [x]

/-- The seeding loop of Syclop::solve (lines 75-83): for each valid start
state, given as (located region, coverage cell), insert the region into
startRegions_, push a fresh root motion (addRoot) onto that region's motions
list, bump numMotions_ and update the coverage estimate.  Root motions are
identified by the running numMotions_ counter. -/
def seedStartStates (g : GraphState) (sr : List Nat) (nm : Nat) :
    List (Nat × Nat) → GraphState × List Nat × Nat
  | [] => (g, sr, nm)
  | info :: rest =>
    let sr1 := insertSet sr info.1
    let g1 := pushMotion g info.1 nm
    let g2 := (updateCoverageEstimate g1 info.1 info.2).1
    seedStartStates g2 sr1 (nm + 1) rest

/-- Outcome of the phase of Syclop::solve before the main loop: either an
early return (lines 86-87 or 97-98), carrying the value solve returns, whether
a solution path was added (addSolutionPath is only reached at line 195), the
logged message and the state left behind, or the data with which the main loop
starts. -/
inductive StartPhaseResult where
  | earlyReturn (returnValue : Bool) (solutionAdded : Bool) (errMsg : String)
      (g : GraphState) (startRegions : List Nat)
  | proceed (g : GraphState) (startRegions goalRegions : List Nat) (numMotions : Nat)
  deriving Repr

/-- Lines 75-100 of Syclop::solve: seed the start states; fail if
startRegions_ ends up empty; when goalRegions_ is empty, locate one sampled
goal state or fail.  goalSample is the located region of the state returned by
pis_.nextGoal(ptc), none when no valid goal state could be sampled. -/
def solveStartPhase (g : GraphState) (startInfos : List (Nat × Nat))
    (goalSample : Option Nat) (priorGoalRegions : List Nat) : StartPhaseResult :=
  let seeded := seedStartStates g [] 0 startInfos
  if seeded.2.1.isEmpty then
    .earlyReturn false false "There are no valid start states" seeded.1 seeded.2.1
  else
    if priorGoalRegions.isEmpty then
      match goalSample with
      | some gr => .proceed seeded.1 seeded.2.1 (insertSet priorGoalRegions gr) seeded.2.2
      | none =>
        .earlyReturn false false "Unable to sample a valid goal state" seeded.1 seeded.2.1
    else .proceed seeded.1 seeded.2.1 priorGoalRegions seeded.2.2

/-- One counter increment ++numX[rid] of the sampling pass. -/
def bumpAt (l : List Nat) (i : Nat) : List Nat :=
  l.set i (l.getD i 0 + 1)

/-- The sampling pass of Syclop::setupRegionEstimates (lines 227-234): for
each drawn sample, given as (located region, validity-checker verdict), bump
numValid[rid] when the state is valid and always bump numTotal[rid];
the accumulator is the pair (numValid, numTotal). -/
def sampleTallyGo : List (Nat × Bool) → List Nat × List Nat → List Nat × List Nat
  | [], acc => acc
  | s :: rest, acc =>
    sampleTallyGo rest (if s.2 then bumpAt acc.1 s.1 else acc.1, bumpAt acc.2 s.1)

/-- The two counter vectors of setupRegionEstimates, initialized to zero for
each of the decomposition's regions (lines 221-222). -/
def sampleTally (numRegions : Nat) (samples : List (Nat × Bool)) : List Nat × List Nat :=
  sampleTallyGo samples (List.replicate numRegions 0, List.replicate numRegions 0)

/-- The per-region body of the second loop of setupRegionEstimates
(lines 239-248): set volume from the decomposition, percentValidCells to
valid/total (1.0 when total is 0), freeVolume to their product floored at
DBL_EPSILON, then recompute the derived scalars. -/
def estimateRegion (volumes : Nat → ℚ) (numValid numTotal : List Nat)
    (i : Nat) (r : Region) : Region :=
  let pvc : ℚ :=
    if numTotal.getD i 0 = 0 then 1
    else (numValid.getD i 0 : ℚ) / (numTotal.getD i 0 : ℚ)
  let fv0 := pvc * volumes i
  let fv := if fv0 < eps then eps else fv0
  updateRegion { r with volume := volumes i, percentValidCells := pvc, freeVolume := fv }

/-- One iteration of the second loop of setupRegionEstimates, writing back the
re-estimated region i. -/
def estimateStep (volumes : Nat → ℚ) (numValid numTotal : List Nat)
    (g : GraphState) (i : Nat) : GraphState :=
  setRegion g i (estimateRegion volumes numValid numTotal i (regionAt g i))

/-- Syclop::setupRegionEstimates (lines 219-250), with the uniformly drawn
samples passed in as (located region, validity) pairs and the decomposition's
getRegionVolume as a function. -/
def setupRegionEstimates (g : GraphState) (volumes : Nat → ℚ)
    (samples : List (Nat × Bool)) : GraphState :=
  let vt := sampleTally g.regions.length samples
  (List.range g.regions.length).foldl (estimateStep volumes vt.1 vt.2) g

/-- Number of the uniform samples that landed in region i. -/
def countTotal (samples : List (Nat × Bool)) (i : Nat) : Nat :=
  (samples.filter (fun s => s.1 == i)).length

/-- Number of the uniform samples that landed in region i and were valid. -/
def countValid (samples : List (Nat × Bool)) (i : Nat) : Nat :=
  (samples.filter (fun s => s.1 == i && s.2)).length

theorem regions_setRegion (g : GraphState) (i : Nat) (r : Region) :
    (setRegion g i r).regions.length = g.regions.length := by
  simp [setRegion]

theorem adjacencies_setRegion (g : GraphState) (i : Nat) (r : Region) :
    (setRegion g i r).adjacencies = g.adjacencies := rfl

theorem regionAt_setRegion_self (g : GraphState) (i : Nat) (r : Region)
    (h : i < g.regions.length) : regionAt (setRegion g i r) i = r := by
  simp [regionAt, setRegion, List.getD_eq_getElem?_getD, List.getElem?_set_self', h,
    List.getElem?_eq_getElem h]

theorem regionAt_setRegion_ne (g : GraphState) (i j : Nat) (r : Region)
    (h : j ≠ i) : regionAt (setRegion g i r) j = regionAt g j := by
  simp [regionAt, setRegion, List.getD_eq_getElem?_getD, List.getElem?_set_ne (Ne.symm h)]

theorem regionAt_setAdj (g : GraphState) (u v : Nat) (a : Adjacency) (j : Nat) :
    regionAt (setAdj g u v a) j = regionAt g j := rfl

theorem regions_setAdj (g : GraphState) (u v : Nat) (a : Adjacency) :
    (setAdj g u v a).regions = g.regions := rfl

theorem regions_updateEdgeAt (fs : List EdgeCostFactorFn) (g g' : GraphState)
    (u v : Nat) (h : updateEdgeAt fs g u v = some g') : g'.regions = g.regions := by
  unfold updateEdgeAt at h
  cases hf : findAdj g u v with
  | none => rw [hf] at h; exact absurd h (by simp)
  | some a =>
    rw [hf] at h
    cases hp : applyFactors fs g u v with
    | none => rw [hp] at h; exact absurd h (by simp)
    | some c => rw [hp] at h; simp at h; rw [← h]; rfl

theorem regions_updateConnectionEstimate (fs : List EdgeCostFactorFn)
    (g : GraphState) (c d cell : Nat) (g' : GraphState) (b : Bool)
    (h : updateConnectionEstimate fs g c d cell = some (g', b)) :
    g'.regions = g.regions := by
  simp only [updateConnectionEstimate] at h
  cases hf : findAdj g c d with
  | none => rw [hf] at h; exact absurd h (by simp)
  | some a =>
    rw [hf] at h
    by_cases hc : cell ∈ a.covGridCells
    · simp [hc] at h; rw [← h.1]
    · simp [hc] at h
      obtain ⟨g2, hg2, hb⟩ := h
      have := regions_updateEdgeAt fs _ g2 c d hg2
      rw [← hb.1, this, regions_setAdj]

/-- The region write of updateRegion changes only the two derived scalars. -/
theorem updateRegion_fields (r : Region) :
    (updateRegion r).index = r.index ∧ (updateRegion r).volume = r.volume ∧
    (updateRegion r).percentValidCells = r.percentValidCells ∧
    (updateRegion r).freeVolume = r.freeVolume ∧
    (updateRegion r).numSelections = r.numSelections ∧
    (updateRegion r).covGridCells = r.covGridCells ∧
    (updateRegion r).motions = r.motions := by
  simp [updateRegion]

theorem regions_length_updateCoverageEstimate (g : GraphState) (i cell : Nat) :
    (updateCoverageEstimate g i cell).1.regions.length = g.regions.length := by
  simp only [updateCoverageEstimate]
  split <;> simp [regions_setRegion]

theorem motions_updateCoverageEstimate (g : GraphState) (i cell : Nat) (j : Nat) :
    (regionAt (updateCoverageEstimate g i cell).1 j).motions = (regionAt g j).motions := by
  simp only [updateCoverageEstimate]
  split
  · rfl
  · by_cases hj : j = i
    · subst hj
      by_cases hlen : j < g.regions.length
      · rw [regionAt_setRegion_self _ _ _ hlen]
        simp [updateRegion]
      · simp [regionAt, setRegion, List.getD_eq_getElem?_getD,
          List.getElem?_eq_none (l := g.regions.set j _) (by simpa using Nat.le_of_not_lt hlen),
          List.getElem?_eq_none (l := g.regions) (Nat.le_of_not_lt hlen)]
    · rw [regionAt_setRegion_ne _ _ _ _ hj]

theorem regionAt_updateCoverageEstimate_ne (g : GraphState) (i cell : Nat) (j : Nat)
    (hj : j ≠ i) : regionAt (updateCoverageEstimate g i cell).1 j = regionAt g j := by
  simp only [updateCoverageEstimate]
  split
  · rfl
  · exact regionAt_setRegion_ne _ _ _ _ hj

theorem trackApprox_graph (st : LoopState) (m : MotionInfo) :
    (trackApprox st m).graph = st.graph := by
  simp only [trackApprox]
  cases st.goalDist <;> simp
  split <;> rfl

theorem trackApprox_availDist (st : LoopState) (m : MotionInfo) :
    (trackApprox st m).availDist = st.availDist := by
  simp only [trackApprox]
  cases st.goalDist <;> simp
  split <;> rfl

/-- availPhase does not touch the graph. -/
theorem availPhase_graph (st2 : LoopState) (newRegion : Nat) :
    (availPhase st2 newRegion).graph = st2.graph := by
  simp only [availPhase]
  split <;> rfl

/-- availPhase either leaves availDist unchanged or appends the one entry for
the newly entered region, weighted by that region's current weight. -/
theorem availPhase_availDist (st2 : LoopState) (newRegion : Nat) :
    (availPhase st2 newRegion).availDist = st2.availDist ∨
      ((regionAt st2.graph newRegion).motions.length = 1 ∧
       (availPhase st2 newRegion).availDist =
         st2.availDist ++ [(newRegion, (regionAt st2.graph newRegion).weight)]) := by
  simp only [availPhase]
  split
  · exact Or.inr ⟨by assumption, rfl⟩
  · exact Or.inl rfl

/-- adjacencyPhase does not touch the region payloads or availDist. -/
theorem adjacencyPhase_frame (fs : List EdgeCostFactorFn)
    (region newRegion cell : Nat) (st3 st' : LoopState)
    (h : adjacencyPhase fs region newRegion cell st3 = some st') :
    st'.graph.regions = st3.graph.regions ∧ st'.availDist = st3.availDist := by
  simp only [adjacencyPhase] at h
  cases hf : findAdj st3.graph region newRegion with
  | none => rw [hf] at h; simp at h; rw [← h]; exact ⟨rfl, rfl⟩
  | some a =>
    rw [hf] at h
    rw [Option.map_eq_some'] at h
    obtain ⟨p, hp, hst⟩ := h
    have hreg := regions_updateConnectionEstimate fs _ region newRegion cell p.1 p.2 hp
    constructor
    · rw [← hst]
      simpa [regions_setAdj] using hreg
    · rw [← hst]

/-- Whatever branch placeMotion takes, the resulting region payloads are those
after the push_back and the coverage update; the later availDist and adjacency
updates do not touch them. -/
theorem placeMotion_some_regions (fs : List EdgeCostFactorFn) (region : Nat)
    (st : LoopState) (m : MotionInfo) (st' : LoopState)
    (h : placeMotion fs region st m = some st') :
    st'.graph.regions =
      (updateCoverageEstimate (pushMotion st.graph m.stateRegion m.mid)
        m.stateRegion m.stateCovCell).1.regions := by
  simp only [placeMotion] at h
  split at h
  · simp at h; rw [← h]
  · have := adjacencyPhase_frame fs region m.stateRegion m.stateCovCell _ st' h
    rw [this.1, availPhase_graph]

/-- placeMotion either leaves availDist unchanged or appends the single entry
for the region the new motion entered for the first time. -/
theorem placeMotion_some_availDist (fs : List EdgeCostFactorFn) (region : Nat)
    (st : LoopState) (m : MotionInfo) (st' : LoopState)
    (h : placeMotion fs region st m = some st') :
    st'.availDist = st.availDist ∨
      ∃ w, st'.availDist = st.availDist ++ [(m.stateRegion, w)] := by
  simp only [placeMotion] at h
  split at h
  · simp at h; left; rw [← h]
  · have hframe := adjacencyPhase_frame fs region m.stateRegion m.stateCovCell _ st' h
    rcases availPhase_availDist
        { st with
          graph := (updateCoverageEstimate (pushMotion st.graph m.stateRegion m.mid)
            m.stateRegion m.stateCovCell).1,
          numMotions := st.numMotions + 1,
          improved := st.improved ||
            (updateCoverageEstimate (pushMotion st.graph m.stateRegion m.mid)
              m.stateRegion m.stateCovCell).2 }
        m.stateRegion with hsame | hnew
    · left; rw [hframe.2, hsame]
    · right; exact ⟨_, by rw [hframe.2, hnew.2]⟩

theorem regions_length_pushMotion (g : GraphState) (i mid : Nat) :
    (pushMotion g i mid).regions.length = g.regions.length := by
  simp [pushMotion, regions_setRegion]

theorem motions_pushMotion_self (g : GraphState) (i mid : Nat)
    (hi : i < g.regions.length) :
    (regionAt (pushMotion g i mid) i).motions = (regionAt g i).motions ++ [mid] := by
  simp [pushMotion, regionAt_setRegion_self g i _ hi]

theorem regionAt_pushMotion_ne (g : GraphState) (i mid j : Nat) (hj : j ≠ i) :
    regionAt (pushMotion g i mid) j = regionAt g j :=
  regionAt_setRegion_ne g i j _ hj

theorem regionAt_eq_of_regions_eq (g g' : GraphState) (h : g.regions = g'.regions)
    (j : Nat) : regionAt g j = regionAt g' j := by
  simp [regionAt, h]

/-- Motions-list evolution across placeMotion: the new motion's identifier is
appended to the motions list of the region its state resides in, and no other
region's motions list changes. -/
theorem placeMotion_motions (fs : List EdgeCostFactorFn) (region : Nat)
    (st : LoopState) (m : MotionInfo) (st' : LoopState)
    (h : placeMotion fs region st m = some st')
    (hval : m.stateRegion < st.graph.regions.length) :
    st'.graph.regions.length = st.graph.regions.length ∧
    (regionAt st'.graph m.stateRegion).motions =
      (regionAt st.graph m.stateRegion).motions ++ [m.mid] ∧
    ∀ j, j ≠ m.stateRegion →
      (regionAt st'.graph j).motions = (regionAt st.graph j).motions := by
  have hr := placeMotion_some_regions fs region st m st' h
  have hcongr := regionAt_eq_of_regions_eq _ _ hr
  have hlen1 : (pushMotion st.graph m.stateRegion m.mid).regions.length =
      st.graph.regions.length := regions_length_pushMotion ..
  refine ⟨?_, ?_, ?_⟩
  · rw [hr, regions_length_updateCoverageEstimate, hlen1]
  · rw [hcongr m.stateRegion, motions_updateCoverageEstimate,
      motions_pushMotion_self _ _ _ hval]
  · intro j hj
    rw [hcongr j, motions_updateCoverageEstimate, regionAt_pushMotion_ne _ _ _ _ hj]

/-- Motions-list evolution across the whole inner loop: each region's motions
list is extended exactly by the identifiers of the motions that were processed
before a goal-satisfying motion was encountered and whose states reside in
that region, in order. -/
theorem processNewMotions_motions (fs : List EdgeCostFactorFn) (region : Nat) :
    ∀ (L : List MotionInfo) (st st' : LoopState),
    processNewMotions fs region st L = some st' →
    (∀ m ∈ L, m.stateRegion < st.graph.regions.length) →
    st'.graph.regions.length = st.graph.regions.length ∧
    ∀ j, (regionAt st'.graph j).motions =
      (regionAt st.graph j).motions ++
        ((L.takeWhile (fun m => !m.goalSat)).filter
          (fun m => m.stateRegion == j)).map MotionInfo.mid := by
  intro L
  induction L with
  | nil =>
    intro st st' h _
    simp only [processNewMotions, Option.some_inj] at h
    subst h
    simp
  | cons m rest ih =>
    intro st st' h hval
    simp only [processNewMotions] at h
    by_cases hgs : m.goalSat
    · simp [hgs, Option.some_inj] at h
      subst h
      simp [List.takeWhile, hgs]
    · rw [if_neg hgs] at h
      rw [Option.bind_eq_some] at h
      obtain ⟨st2, hpm, hrest⟩ := h
      have hta : (trackApprox st m).graph = st.graph := trackApprox_graph st m
      have hvalm : m.stateRegion < (trackApprox st m).graph.regions.length := by
        rw [hta]; exact hval m (List.mem_cons_self m rest)
      have hstep := placeMotion_motions fs region (trackApprox st m) m st2 hpm hvalm
      have hlen2 : st2.graph.regions.length = st.graph.regions.length := by
        rw [hstep.1, hta]
      have hvalrest : ∀ x ∈ rest, x.stateRegion < st2.graph.regions.length := by
        intro x hx
        rw [hlen2]
        exact hval x (List.mem_cons_of_mem m hx)
      obtain ⟨hlen3, hmot⟩ := ih st2 st' hrest hvalrest
      constructor
      · rw [hlen3, hlen2]
      · intro j
        have hTW : (m :: rest).takeWhile (fun x => !x.goalSat) =
            m :: rest.takeWhile (fun x => !x.goalSat) := by
          simp [List.takeWhile, hgs]
        rw [hTW]
        by_cases hj : m.stateRegion = j
        · have : ((m :: rest.takeWhile (fun x => !x.goalSat)).filter
              (fun x => x.stateRegion == j)).map MotionInfo.mid =
              m.mid :: ((rest.takeWhile (fun x => !x.goalSat)).filter
                (fun x => x.stateRegion == j)).map MotionInfo.mid := by
            simp [List.filter_cons, hj]
          rw [this, hmot j, ← hj, hstep.2.1, hta]
          simp
        · have : ((m :: rest.takeWhile (fun x => !x.goalSat)).filter
              (fun x => x.stateRegion == j)).map MotionInfo.mid =
              ((rest.takeWhile (fun x => !x.goalSat)).filter
                (fun x => x.stateRegion == j)).map MotionInfo.mid := by
            simp [List.filter_cons, hj]
          rw [this, hmot j, hstep.2.2 j (fun hc => hj hc.symm), hta]

/-- Motions-list evolution across the seeding loop: each region's motions list
is extended exactly by the identifiers of the root motions whose start states
reside in that region; identifiers are assigned from the running counter. -/
theorem seedStartStates_motions :
    ∀ (infos : List (Nat × Nat)) (g : GraphState) (sr : List Nat) (nm : Nat),
    (∀ p ∈ infos, p.1 < g.regions.length) →
    (seedStartStates g sr nm infos).1.regions.length = g.regions.length ∧
    ∀ j, (regionAt (seedStartStates g sr nm infos).1 j).motions =
      (regionAt g j).motions ++
        ((List.enumFrom nm infos).filter (fun p => p.2.1 == j)).map Prod.fst := by
  intro infos
  induction infos with
  | nil =>
    intro g sr nm _
    simp [seedStartStates, List.enumFrom]
  | cons info rest ih =>
    intro g sr nm hval
    have hv1 : info.1 < g.regions.length := hval info (List.mem_cons_self info rest)
    have hstep : seedStartStates g sr nm (info :: rest) =
        seedStartStates ((updateCoverageEstimate (pushMotion g info.1 nm) info.1 info.2).1)
          (insertSet sr info.1) (nm + 1) rest := rfl
    set g2 := (updateCoverageEstimate (pushMotion g info.1 nm) info.1 info.2).1 with hg2
    have hlen2 : g2.regions.length = g.regions.length := by
      rw [hg2, regions_length_updateCoverageEstimate, regions_length_pushMotion]
    have hvalrest : ∀ p ∈ rest, p.1 < g2.regions.length := by
      intro p hp
      rw [hlen2]
      exact hval p (List.mem_cons_of_mem info hp)
    obtain ⟨hlenr, hmotr⟩ := ih g2 (insertSet sr info.1) (nm + 1) hvalrest
    rw [hstep]
    refine ⟨by rw [hlenr, hlen2], ?_⟩
    intro j
    have henum : List.enumFrom nm (info :: rest) =
        (nm, info) :: List.enumFrom (nm + 1) rest := rfl
    rw [hmotr j, henum]
    by_cases hj : info.1 = j
    · have hg2mot : (regionAt g2 j).motions = (regionAt g j).motions ++ [nm] := by
        rw [hg2, ← hj, motions_updateCoverageEstimate, motions_pushMotion_self _ _ _ hv1]
      rw [hg2mot]
      simp [List.filter_cons, hj]
    · have hg2mot : (regionAt g2 j).motions = (regionAt g j).motions := by
        rw [hg2, motions_updateCoverageEstimate,
          regionAt_pushMotion_ne _ _ _ _ (fun hc => hj hc.symm)]
      rw [hg2mot]
      simp [List.filter_cons, hj]

/-- Out of range region reads yield the default region, whose motions list is
empty. -/
theorem motions_regionAt_of_le (g : GraphState) (j : Nat)
    (hj : g.regions.length ≤ j) : (regionAt g j).motions = [] := by
  rw [regionAt, List.getD_eq_getElem?_getD, List.getElem?_eq_none hj]
  rfl

/-- C1, amended: every root motion produced by addRoot, and every motion from
selectAndExtend that is processed before a goal-satisfying motion is
encountered, is appended to exactly one region's motions list, namely the list
of the region in which its state resides.  A motion that satisfies the goal is
appended to no region's motions list: the loop breaks at line 145 before the
push_back at line 155 runs. -/
theorem c1_motion_placement :
    (∀ (g : GraphState) (sr : List Nat) (nm : Nat) (infos : List (Nat × Nat))
       (k : Nat) (info : Nat × Nat),
       (∀ p ∈ infos, p.1 < g.regions.length) →
       (∀ j, j < g.regions.length → ∀ x ∈ (regionAt g j).motions, x < nm) →
       (k, info) ∈ List.enumFrom nm infos →
       (regionAt (seedStartStates g sr nm infos).1 info.1).motions.count k = 1 ∧
       ∀ j, j ≠ info.1 → k ∉ (regionAt (seedStartStates g sr nm infos).1 j).motions) ∧
    (∀ (fs : List EdgeCostFactorFn) (region : Nat) (st st' : LoopState)
       (L : List MotionInfo),
       processNewMotions fs region st L = some st' →
       (∀ m ∈ L, m.stateRegion < st.graph.regions.length) →
       (∀ j, j < st.graph.regions.length →
         ∀ x ∈ (regionAt st.graph j).motions, x ∉ L.map MotionInfo.mid) →
       (L.map MotionInfo.mid).Nodup →
       (∀ m ∈ L.takeWhile (fun x => !x.goalSat),
          (regionAt st'.graph m.stateRegion).motions.count m.mid = 1 ∧
          ∀ j, j ≠ m.stateRegion → m.mid ∉ (regionAt st'.graph j).motions) ∧
       (∀ m, L.find? (fun x => x.goalSat) = some m →
          ∀ j, m.mid ∉ (regionAt st'.graph j).motions)) := by
  constructor
  · intro g sr nm infos k info hval hfreshB hmem
    have hfresh : ∀ j x, x ∈ (regionAt g j).motions → x < nm := by
      intro j x hx
      by_cases hj : j < g.regions.length
      · exact hfreshB j hj x hx
      · rw [motions_regionAt_of_le g j (Nat.le_of_not_lt hj)] at hx
        exact absurd hx (List.not_mem_nil x)
    obtain ⟨_, hmot⟩ := seedStartStates_motions infos g sr nm hval
    have hnmk : nm ≤ k := (List.mem_enumFrom hmem).1
    have hnodupE : ((List.enumFrom nm infos).map Prod.fst).Nodup := by
      rw [List.enumFrom_map_fst]
      exact List.nodup_range' ..
    constructor
    · rw [hmot info.1, List.count_append]
      have h0 : (regionAt g info.1).motions.count k = 0 :=
        List.count_eq_zero_of_not_mem
          (fun hx => absurd (hfresh _ _ hx) (Nat.not_lt.mpr hnmk))
      have hsub : List.Sublist
          (((List.enumFrom nm infos).filter (fun p => p.2.1 == info.1)).map Prod.fst)
          ((List.enumFrom nm infos).map Prod.fst) :=
        List.Sublist.map _ (List.filter_sublist _)
      have hmemf : k ∈ ((List.enumFrom nm infos).filter
          (fun p => p.2.1 == info.1)).map Prod.fst :=
        List.mem_map_of_mem _ (List.mem_filter.mpr ⟨hmem, by simp⟩)
      rw [h0, List.count_eq_one_of_mem (hnodupE.sublist hsub) hmemf]
    · intro j hj hx
      rw [hmot j] at hx
      rcases List.mem_append.mp hx with hold | hnew
      · exact absurd (hfresh _ _ hold) (Nat.not_lt.mpr hnmk)
      · obtain ⟨p, hpf, hpk⟩ := List.mem_map.mp hnew
        have hpm := List.mem_filter.mp hpf
        have hpeq : p = (k, info) :=
          List.inj_on_of_nodup_map hnodupE hpm.1 hmem (by rw [hpk])
        have := hpm.2
        rw [hpeq] at this
        simp at this
        exact hj this.symm
  · intro fs region st st' L h hval hfreshB hnodup
    have hfresh : ∀ j x, x ∈ (regionAt st.graph j).motions → x ∉ L.map MotionInfo.mid := by
      intro j x hx
      by_cases hj : j < st.graph.regions.length
      · exact hfreshB j hj x hx
      · rw [motions_regionAt_of_le st.graph j (Nat.le_of_not_lt hj)] at hx
        exact absurd hx (List.not_mem_nil x)
    obtain ⟨_, hmot⟩ := processNewMotions_motions fs region L st st' h hval
    have hTWsub : List.Sublist (L.takeWhile (fun x => !x.goalSat)) L :=
      List.takeWhile_sublist _
    constructor
    · intro m hm
      have hmL : m ∈ L := hTWsub.subset hm
      have hmid_in : m.mid ∈ L.map MotionInfo.mid := List.mem_map_of_mem _ hmL
      constructor
      · rw [hmot m.stateRegion, List.count_append]
        have h0 : (regionAt st.graph m.stateRegion).motions.count m.mid = 0 :=
          List.count_eq_zero_of_not_mem (fun hx => hfresh _ _ hx hmid_in)
        have hsub : List.Sublist
            (((L.takeWhile (fun x => !x.goalSat)).filter
                (fun x => x.stateRegion == m.stateRegion)).map MotionInfo.mid)
            (L.map MotionInfo.mid) :=
          List.Sublist.map _ ((List.filter_sublist _).trans hTWsub)
        have hmm : m.mid ∈ ((L.takeWhile (fun x => !x.goalSat)).filter
            (fun x => x.stateRegion == m.stateRegion)).map MotionInfo.mid :=
          List.mem_map_of_mem _ (List.mem_filter.mpr ⟨hm, by simp⟩)
        rw [h0, List.count_eq_one_of_mem (hnodup.sublist hsub) hmm]
      · intro j hj hx
        rw [hmot j] at hx
        rcases List.mem_append.mp hx with hold | hnew
        · exact hfresh _ _ hold hmid_in
        · obtain ⟨m', hm'f, hm'k⟩ := List.mem_map.mp hnew
          have hm'm := List.mem_filter.mp hm'f
          have heq : m' = m :=
            List.inj_on_of_nodup_map hnodup (hTWsub.subset hm'm.1) hmL (by rw [hm'k])
          have := hm'm.2
          rw [heq] at this
          simp at this
          exact hj this.symm
    · intro m hfind j hx
      have hmL : m ∈ L := List.mem_of_find?_eq_some hfind
      have hgs : m.goalSat = true := List.find?_some hfind
      have hmid_in : m.mid ∈ L.map MotionInfo.mid := List.mem_map_of_mem _ hmL
      rw [hmot j] at hx
      rcases List.mem_append.mp hx with hold | hnew
      · exact hfresh _ _ hold hmid_in
      · obtain ⟨m', hm'f, hm'k⟩ := List.mem_map.mp hnew
        have hm'm := List.mem_filter.mp hm'f
        have hm'TW : m' ∈ L.takeWhile (fun x => !x.goalSat) := hm'm.1
        have heq : m' = m :=
          List.inj_on_of_nodup_map hnodup (hTWsub.subset hm'TW) hmL (by rw [hm'k])
        have hpw := List.mem_takeWhile_imp hm'TW
        rw [heq] at hpw
        simp [hgs] at hpw

/-- A concrete three-region decomposition graph in mid-solve shape: region 1
holds the root motion 0 from the seeding phase, regions 0 and 2 are empty, the
adjacency map is empty. -/
def exGraph : GraphState :=
  { regions := [
      { (default : Region) with index := 0 },
      { (default : Region) with index := 1, motions := [0] },
      { (default : Region) with index := 2 }],
    adjacencies := [] }

/-- The availability distribution computeAvailableRegions builds over the
lead [0, 1] on exGraph, with probKeepAddingToAvail set to 1 so the walk never
stops early. -/
def exAvail : List (Nat × ℚ) :=
  computeAvailableRegions exGraph 1 (fun _ => 0) [0, 1]

/-- A concrete loop state at the start of a region-expansion iteration on
exGraph with lead [0, 1]. -/
def exState : LoopState :=
  { graph := exGraph, availDist := exAvail, solved := false, solution := none,
    goalDist := none, numMotions := 1, improved := false }

/-- A motion (produced by selectAndExtend from region 1) whose state satisfies
the goal. -/
def exGoalMotion : MotionInfo :=
  { mid := 7, stateRegion := 0, stateCovCell := 3, goalSat := true, dist := 0 }

/-- A motion produced from region 1 whose state resides in region 2, which is
not on the lead [0, 1]. -/
def exOffLeadMotion : MotionInfo :=
  { mid := 1, stateRegion := 2, stateCovCell := 5, goalSat := false, dist := 1 }

/-- C1 counterexample: processing a motion that satisfies the goal appends it
to no region's motions list (its identifier occurs zero times across all
regions), because the loop breaks before the push_back; the claim requires it
to be appended to exactly one list. -/
theorem c1_counterexample :
    (processNewMotions setupEdgeCostFactors 1 exState [exGoalMotion]).map
        (fun s => (s.graph.regions.map (fun r => r.motions.count 7)).sum) = some 0 ∧
    exGoalMotion.goalSat = true ∧ (some 0 : Option Nat) ≠ some 1 := by
  refine ⟨by decide, by decide, by decide⟩

/-- C1 witness: the amended statement instantiated on exGraph: the root seeded
into region 0 occurs exactly once in region 0's motions list, and the non-goal
motion placed into region 2 occurs exactly once there. -/
theorem c1_witness :
    (regionAt (seedStartStates exGraph [] 1 [(0, 5)]).1 0).motions.count 1 = 1 ∧
    (processNewMotions setupEdgeCostFactors 1 exState [exOffLeadMotion]).map
        (fun s => (regionAt s.graph 2).motions.count 1) = some 1 := by
  constructor
  · exact (c1_motion_placement.1 exGraph [] 1 [(0, 5)] 1 (0, 5)
      (by decide) (by decide) (by decide)).1
  · cases hp : processNewMotions setupEdgeCostFactors 1 exState [exOffLeadMotion] with
    | none => exact absurd hp (by decide)
    | some st' =>
      have h := ((c1_motion_placement.2 setupEdgeCostFactors 1 exState st'
          [exOffLeadMotion] hp (by decide) (by decide) (by decide)).1
        exOffLeadMotion (by decide)).1
      simpa using h

/-- Every entry the availability walk produces is a region of the walked list
that has at least one motion, recorded with that region's current weight. -/
theorem availWalk_entries (g : GraphState) (pk : ℚ) (draws : Nat → ℚ) :
    ∀ (rev : List Nat) (k : Nat), ∀ p ∈ availWalk g pk draws rev k,
      p.1 ∈ rev ∧ (regionAt g p.1).motions ≠ [] ∧ p.2 = (regionAt g p.1).weight := by
  intro rev
  induction rev with
  | nil => intro k p hp; exact absurd hp (List.not_mem_nil p)
  | cons r rest ih =>
    intro k p hp
    rw [availWalk] at hp
    by_cases hre : (regionAt g r).motions.isEmpty
    · rw [if_pos hre] at hp
      obtain ⟨h1, h2, h3⟩ := ih k p hp
      exact ⟨List.mem_cons_of_mem r h1, h2, h3⟩
    · rw [if_neg hre] at hp
      rcases List.mem_cons.mp hp with hhead | htail
      · refine ⟨?_, ?_, ?_⟩
        · rw [hhead]; exact List.mem_cons_self r rest
        · rw [hhead]
          simpa [List.isEmpty_iff] using hre
        · rw [hhead]
      · by_cases hstop : pk ≤ draws k
        · rw [if_pos hstop] at htail
          exact absurd htail (List.not_mem_nil p)
        · rw [if_neg hstop] at htail
          obtain ⟨h1, h2, h3⟩ := ih (k + 1) p htail
          exact ⟨List.mem_cons_of_mem r h1, h2, h3⟩

/-- The keys the availability walk produces follow the walked order: they form
a sublist of the walked list. -/
theorem availWalk_keys_sublist (g : GraphState) (pk : ℚ) (draws : Nat → ℚ) :
    ∀ (rev : List Nat) (k : Nat),
      List.Sublist ((availWalk g pk draws rev k).map Prod.fst) rev := by
  intro rev
  induction rev with
  | nil => intro k; simp [availWalk]
  | cons r rest ih =>
    intro k
    rw [availWalk]
    by_cases hre : (regionAt g r).motions.isEmpty
    · rw [if_pos hre]
      exact (ih k).cons r
    · rw [if_neg hre]
      by_cases hstop : pk ≤ draws k
      · rw [if_pos hstop]
        simp only [List.map_cons, List.map_nil]
        exact List.Sublist.cons₂ r (List.nil_sublist rest)
      · rw [if_neg hstop]
        simpa using List.Sublist.cons₂ r (ih (k + 1))

/-- The first key the availability walk adds is the first region of the walked
list whose motions list is non-empty (so, walking the reversed lead, the
closest-to-goal region with motions is always included). -/
theorem availWalk_head (g : GraphState) (pk : ℚ) (draws : Nat → ℚ) :
    ∀ (rev : List Nat) (k : Nat),
      (availWalk g pk draws rev k).head?.map Prod.fst =
        rev.find? (fun r => !(regionAt g r).motions.isEmpty) := by
  intro rev
  induction rev with
  | nil => intro k; simp [availWalk]
  | cons r rest ih =>
    intro k
    rw [availWalk, List.find?]
    by_cases hre : (regionAt g r).motions.isEmpty
    · rw [if_pos hre]
      simp only [hre, Bool.not_true]
      exact ih k
    · rw [if_neg hre]
      simp only [List.isEmpty_iff] at hre
      have hfalse : (regionAt g r).motions.isEmpty = false := by
        simpa [List.isEmpty_iff] using hre
      simp [hfalse]

/-- The availability walk produces no entry exactly when no region of the
walked list has a motion. -/
theorem availWalk_eq_nil_iff (g : GraphState) (pk : ℚ) (draws : Nat → ℚ) :
    ∀ (rev : List Nat) (k : Nat),
      availWalk g pk draws rev k = [] ↔
        ∀ r ∈ rev, (regionAt g r).motions = [] := by
  intro rev
  induction rev with
  | nil => intro k; simp [availWalk]
  | cons r rest ih =>
    intro k
    rw [availWalk]
    by_cases hre : (regionAt g r).motions.isEmpty
    · rw [if_pos hre]
      rw [ih k]
      simp only [List.isEmpty_iff] at hre
      constructor
      · intro h x hx
        rcases List.mem_cons.mp hx with hx | hx
        · rw [hx]; exact hre
        · exact h x hx
      · intro h x hx
        exact h x (List.mem_cons_of_mem r hx)
    · rw [if_neg hre]
      simp only [List.isEmpty_iff] at hre
      constructor
      · intro h; exact absurd h (List.cons_ne_nil _ _)
      · intro h
        exact absurd (h r (List.mem_cons_self r rest)) hre

/-- placeMotion preserves the availability invariant: every key of availDist
denotes a region with a non-empty motions list. -/
theorem placeMotion_availInv (fs : List EdgeCostFactorFn) (region : Nat)
    (st : LoopState) (m : MotionInfo) (st' : LoopState)
    (h : placeMotion fs region st m = some st')
    (hval : m.stateRegion < st.graph.regions.length)
    (hinv : ∀ p ∈ st.availDist, (regionAt st.graph p.1).motions ≠ []) :
    ∀ p ∈ st'.availDist, (regionAt st'.graph p.1).motions ≠ [] := by
  obtain ⟨_, hself, hother⟩ := placeMotion_motions fs region st m st' h hval
  have hkey : ∀ q : Nat, (regionAt st.graph q).motions ≠ [] →
      (regionAt st'.graph q).motions ≠ [] := by
    intro q hq
    by_cases hqs : q = m.stateRegion
    · rw [hqs, hself]
      simp
    · rw [hother q hqs]
      exact hq
  intro p hp
  rcases placeMotion_some_availDist fs region st m st' h with hsame | ⟨w, hnew⟩
  · rw [hsame] at hp
    exact hkey p.1 (hinv p hp)
  · rw [hnew] at hp
    rcases List.mem_append.mp hp with hold | hlast
    · exact hkey p.1 (hinv p hold)
    · have : p = (m.stateRegion, w) := by simpa using hlast
      rw [this, hself]
      simp

/-- The whole inner loop preserves the availability invariant. -/
theorem processNewMotions_availInv (fs : List EdgeCostFactorFn) (region : Nat) :
    ∀ (L : List MotionInfo) (st st' : LoopState),
    processNewMotions fs region st L = some st' →
    (∀ m ∈ L, m.stateRegion < st.graph.regions.length) →
    (∀ p ∈ st.availDist, (regionAt st.graph p.1).motions ≠ []) →
    ∀ p ∈ st'.availDist, (regionAt st'.graph p.1).motions ≠ [] := by
  intro L
  induction L with
  | nil =>
    intro st st' h _ hinv
    simp only [processNewMotions, Option.some_inj] at h
    subst h
    exact hinv
  | cons m rest ih =>
    intro st st' h hval hinv
    simp only [processNewMotions] at h
    by_cases hgs : m.goalSat
    · simp [hgs, Option.some_inj] at h
      subst h
      exact hinv
    · rw [if_neg hgs] at h
      rw [Option.bind_eq_some] at h
      obtain ⟨st2, hpm, hrest⟩ := h
      have hta : (trackApprox st m).graph = st.graph := trackApprox_graph st m
      have htaa : (trackApprox st m).availDist = st.availDist := trackApprox_availDist st m
      have hinv2 : ∀ p ∈ st2.availDist, (regionAt st2.graph p.1).motions ≠ [] := by
        refine placeMotion_availInv fs region (trackApprox st m) m st2 hpm ?_ ?_
        · rw [hta]; exact hval m (List.mem_cons_self m rest)
        · rw [hta, htaa]; exact hinv
      have hlen2 : st2.graph.regions.length = st.graph.regions.length := by
        rw [(placeMotion_motions fs region (trackApprox st m) m st2 hpm
          (by rw [hta]; exact hval m (List.mem_cons_self m rest))).1, hta]
      exact ih st2 st' hrest
        (fun x hx => by rw [hlen2]; exact hval x (List.mem_cons_of_mem m hx)) hinv2

/-- C2, amended: every key of availDist denotes a region with a non-empty
motions list throughout; a key established by computeAvailableRegions
additionally lies on the lead, but a key added inside the region-expansion
loop when the tree first enters a region (line 163) need not lie on the
lead. -/
theorem c2_availdist :
    (∀ (g : GraphState) (pk : ℚ) (draws : Nat → ℚ) (lead : List Nat)
       (p : Nat × ℚ), p ∈ computeAvailableRegions g pk draws lead →
       p.1 ∈ lead ∧ (regionAt g p.1).motions ≠ []) ∧
    (∀ (fs : List EdgeCostFactorFn) (region : Nat) (L : List MotionInfo)
       (st st' : LoopState),
       processNewMotions fs region st L = some st' →
       (∀ m ∈ L, m.stateRegion < st.graph.regions.length) →
       (∀ p ∈ st.availDist, (regionAt st.graph p.1).motions ≠ []) →
       ∀ p ∈ st'.availDist, (regionAt st'.graph p.1).motions ≠ []) := by
  constructor
  · intro g pk draws lead p hp
    obtain ⟨h1, h2, _⟩ := availWalk_entries g pk draws lead.reverse 0 p hp
    exact ⟨List.mem_reverse.mp h1, h2⟩
  · intro fs region L st st' h hval hinv
    exact processNewMotions_availInv fs region L st st' h hval hinv

/-- C2 counterexample: with lead [0, 1] on exGraph, availDist starts as
[(1, 1)]; processing a motion whose state resides in off-lead region 2 makes
the tree enter region 2 for the first time, so 2 is added to availDist even
though 2 is not on the lead - refuting the claimed invariant that every key of
availDist occurs in the current lead sequence. -/
theorem c2_counterexample :
    exState.availDist = computeAvailableRegions exGraph 1 (fun _ => 0) [0, 1] ∧
    (processNewMotions setupEdgeCostFactors 1 exState [exOffLeadMotion]).map
        (fun s => s.availDist.map Prod.fst) = some [1, 2] ∧
    (2 : Nat) ∉ [0, 1] := by
  refine ⟨rfl, by decide, by decide⟩

/-- C2 witness: the amended statement instantiated on exGraph: the key 1 that
computeAvailableRegions produced lies on the lead [0, 1] and denotes a region
with motions, and after the off-lead motion is processed the key 2 still
denotes a region with a non-empty motions list. -/
theorem c2_witness :
    (1 : Nat) ∈ [0, 1] ∧ (regionAt exGraph 1).motions ≠ [] ∧
    (processNewMotions setupEdgeCostFactors 1 exState [exOffLeadMotion]).map
        (fun s => (regionAt s.graph 2).motions.isEmpty) = some false := by
  obtain ⟨h1, h2⟩ := c2_availdist.1 exGraph 1 (fun _ => 0) [0, 1] (1, 1) (by decide)
  refine ⟨h1, h2, ?_⟩
  cases hp : processNewMotions setupEdgeCostFactors 1 exState [exOffLeadMotion] with
  | none => exact absurd hp (by decide)
  | some st' =>
    have hkeys : (2 : Nat) ∈ st'.availDist.map Prod.fst := by
      have hx : (processNewMotions setupEdgeCostFactors 1 exState [exOffLeadMotion]).map
          (fun s => s.availDist.map Prod.fst) = some [1, 2] := by decide
      rw [hp] at hx
      simp only [Option.map_some', Option.some_inj] at hx
      rw [hx]
      decide
    obtain ⟨p, hpmem, hpfst⟩ := List.mem_map.mp hkeys
    have h := c2_availdist.2 setupEdgeCostFactors 1 [exOffLeadMotion] exState st'
      hp (by decide) (by decide) p hpmem
    rw [hpfst] at h
    simp only [Option.map_some']
    have : (regionAt st'.graph 2).motions.isEmpty = false := by
      simpa [List.isEmpty_iff] using h
    rw [this]

/-- The (0, 1) adjacency of the concrete two-region graph below: still empty,
included once in a lead. -/
def exAdj01 : Adjacency :=
  { sourceIndex := 0, targetIndex := 1, cost := 1, empty := true,
    numSelections := 0, numLeadInclusions := 1, covGridCells := [] }

/-- A concrete two-region graph with the single adjacency (0, 1). -/
def exAdjGraph : GraphState :=
  { regions := [
      { (default : Region) with index := 0 },
      { (default : Region) with index := 1 }],
    adjacencies := [((0, 1), exAdj01)] }

/-- C3 counterexample: after addEdgeCostFactor(f) and clearEdgeCostFactors(),
the factor list is empty - the default factor installed at setup is removed
too - so updateEdge computes cost 1.0 (the empty product) on the (0, 1)
adjacency of exAdjGraph, while the default edge cost there is 2. -/
theorem c3_counterexample :
    clearEdgeCostFactors (addEdgeCostFactor setupEdgeCostFactors
      (fun _ _ _ => some 5)) = [] ∧
    clearEdgeCostFactors (addEdgeCostFactor setupEdgeCostFactors
      (fun _ _ _ => some 5)) ≠ setupEdgeCostFactors ∧
    (updateEdgeAt (clearEdgeCostFactors (addEdgeCostFactor setupEdgeCostFactors
        (fun _ _ _ => some 5))) exAdjGraph 0 1).bind
      (fun g => (findAdj g 0 1).map Adjacency.cost) = some 1 ∧
    defaultEdgeCost exAdjGraph 0 1 = some 2 ∧ (1 : ℚ) ≠ 2 := by
  refine ⟨rfl, ?_, ?_, ?_, by norm_num⟩
  · intro h
    simpa [clearEdgeCostFactors, addEdgeCostFactor, setupEdgeCostFactors]
      using congrArg List.length h
  · rfl
  · have h1 : findAdj exAdjGraph 0 1 = some exAdj01 := rfl
    have ha0 : (regionAt exAdjGraph 0).alpha = 1 := rfl
    have ha1 : (regionAt exAdjGraph 1).alpha = 1 := rfl
    have hsrc : exAdj01.sourceIndex = 0 := rfl
    have htgt : exAdj01.targetIndex = 1 := rfl
    simp only [defaultEdgeCost, h1, Option.map_some', Option.some_inj, hsrc, htgt,
      ha0, ha1]
    norm_num [exAdj01]

/-- C3, amended: addEdgeCostFactor(f) followed by clearEdgeCostFactors()
leaves the edge-cost-factor list empty - clearEdgeCostFactors removes every
registered factor, the default factor installed at setup included - so a
subsequent updateEdge(a) sets a.cost to 1.0, the product over the empty factor
list, not the default edge cost. -/
theorem c3_clear_factors :
    (∀ (fs : List EdgeCostFactorFn) (f : EdgeCostFactorFn),
       clearEdgeCostFactors (addEdgeCostFactor fs f) = []) ∧
    (∀ (fs : List EdgeCostFactorFn) (f : EdgeCostFactorFn) (g : GraphState)
       (u v : Nat) (a : Adjacency), findAdj g u v = some a →
       updateEdgeAt (clearEdgeCostFactors (addEdgeCostFactor fs f)) g u v =
         some (setAdj g u v { a with cost := 1 })) := by
  constructor
  · intro fs f; rfl
  · intro fs f g u v a h
    simp [updateEdgeAt, h, applyFactors, clearEdgeCostFactors]

/-- C3 witness: the amended statement instantiated on exAdjGraph's (0, 1)
adjacency. -/
theorem c3_witness :
    clearEdgeCostFactors (addEdgeCostFactor setupEdgeCostFactors
      (fun _ _ _ => some 5)) = [] ∧
    updateEdgeAt (clearEdgeCostFactors (addEdgeCostFactor setupEdgeCostFactors
        (fun _ _ _ => some 5))) exAdjGraph 0 1 =
      some (setAdj exAdjGraph 0 1 { exAdj01 with cost := 1 }) :=
  ⟨c3_clear_factors.1 setupEdgeCostFactors (fun _ _ _ => some 5),
   c3_clear_factors.2 setupEdgeCostFactors (fun _ _ _ => some 5) exAdjGraph 0 1
     exAdj01 (by decide)⟩

/-- C6, confirmed: for an existing adjacency, defaultEdgeCost returns exactly
((1 + n^2) / (1 + |covGridCells|^2)) * alpha_source * alpha_target, with
n = numLeadInclusions when the edge is empty and numSelections otherwise. -/
theorem c6_default_edge_cost (g : GraphState) (r s : Nat) (a : Adjacency)
    (h : findAdj g r s = some a) :
    defaultEdgeCost g r s = some (specDefaultEdgeCost g a) := by
  simp only [defaultEdgeCost, specDefaultEdgeCost, h, Option.map_some',
    Option.some_inj]
  cases ha : a.empty <;> simp only [ha, Bool.false_eq_true, if_true, if_false] <;> ring

/-- C6 witness: the default edge cost of exAdjGraph's (0, 1) adjacency agrees
with the specification formula. -/
theorem c6_witness :
    defaultEdgeCost exAdjGraph 0 1 = some (specDefaultEdgeCost exAdjGraph exAdj01) :=
  c6_default_edge_cost exAdjGraph 0 1 exAdj01 (by decide)

/-- C7, confirmed: whenever a region's coverage (updateCoverageEstimate) or
selection count (selectRegion) changes, the recomputation sets
alpha = 1 / (c * f) and weight = f / (c * (1 + s^2)) with f = freeVolume^4,
c = 1 + |covGridCells| and s = numSelections read from the updated region. -/
theorem c7_derived_scalars :
    (∀ r : Region, (updateRegion r).alpha = specAlpha (updateRegion r) ∧
       (updateRegion r).weight = specWeight (updateRegion r)) ∧
    (∀ (g : GraphState) (i cell : Nat), i < g.regions.length →
       (updateCoverageEstimate g i cell).2 = true →
       (regionAt (updateCoverageEstimate g i cell).1 i).alpha =
         specAlpha (regionAt (updateCoverageEstimate g i cell).1 i) ∧
       (regionAt (updateCoverageEstimate g i cell).1 i).weight =
         specWeight (regionAt (updateCoverageEstimate g i cell).1 i)) ∧
    (∀ (st : LoopState) (u : ℚ) (idx : Nat) (st' : LoopState),
       selectRegion st u = some (idx, st') → idx < st.graph.regions.length →
       (regionAt st'.graph idx).alpha = specAlpha (regionAt st'.graph idx) ∧
       (regionAt st'.graph idx).weight = specWeight (regionAt st'.graph idx) ∧
       (regionAt st'.graph idx).numSelections =
         (regionAt st.graph idx).numSelections + 1) := by
  have hcore : ∀ r : Region, (updateRegion r).alpha = specAlpha (updateRegion r) ∧
      (updateRegion r).weight = specWeight (updateRegion r) := by
    intro r
    constructor
    · simp only [updateRegion, specAlpha]
      ring
    · simp only [updateRegion, specWeight]
      ring
  refine ⟨hcore, ?_, ?_⟩
  · intro g i cell hi hins
    by_cases hc : cell ∈ (regionAt g i).covGridCells
    · simp [updateCoverageEstimate, hc] at hins
    · simp only [updateCoverageEstimate, hc, if_false]
      rw [regionAt_setRegion_self _ _ _ hi]
      exact hcore _
  · intro st u idx st' h hlt
    simp only [selectRegion, Option.map_eq_some'] at h
    obtain ⟨idx0, hds, hpair⟩ := h
    rw [Prod.mk.injEq] at hpair
    obtain ⟨h1, h2⟩ := hpair
    subst h1
    subst h2
    dsimp only
    rw [regionAt_setRegion_self _ _ _ hlt]
    refine ⟨(hcore _).1, (hcore _).2, ?_⟩
    simp [updateRegion]

/-- C7 witness: the derived-scalar recomputation instantiated concretely: on
updateRegion of exGraph's region 1 directly, and through selectRegion on
exState, where the sampled region 1's numSelections becomes 1. -/
theorem c7_witness :
    (updateRegion (regionAt exGraph 1)).alpha =
      specAlpha (updateRegion (regionAt exGraph 1)) ∧
    (selectRegion exState 0).map
      (fun p => (regionAt p.2.graph 1).numSelections) = some 1 := by
  refine ⟨(c7_derived_scalars.1 (regionAt exGraph 1)).1, ?_⟩
  have hav : exState.availDist = [(1, (1 : ℚ))] := by decide
  have hds : distSample exState.availDist 0 = some 1 := by
    rw [hav]
    simp only [distSample, distSampleGo, List.map_cons, List.map_nil,
      List.sum_cons, List.sum_nil]
    norm_num
  cases hsel : selectRegion exState 0 with
  | none =>
    rw [selectRegion, hds] at hsel
    simp at hsel
  | some p =>
    have hsel2 := hsel
    simp only [selectRegion, hds, Option.map_some', Option.some_inj] at hsel2
    have hp1 : p.1 = 1 := by rw [← hsel2]
    have h := c7_derived_scalars.2.2 exState 0 p.1 p.2 hsel
      (by rw [hp1]; decide)
    simp only [Option.map_some', Option.some_inj]
    rw [← hp1, h.2.2, hp1]
    rfl

/-- On an empty lead the per-edge update loop fails at its very first
iteration: lead[0] is out of bounds, while the unsigned loop bound is
positive. -/
theorem updateLeadEdgesGo_nil (fs : List EdgeCostFactorFn) (g : GraphState)
    (i : Nat) : ∀ r, updateLeadEdgesGo fs [] g i r =
      if r = 0 then some g else none := by
  intro r
  cases r with
  | zero => rfl
  | succ n => rfl

/-- The loop bound lead.size()-1 underflows to 2^64 - 1 on the empty lead, so
the loop body runs and its out-of-bounds read of lead[0] fails. -/
theorem updateLeadEdges_nil (fs : List EdgeCostFactorFn) (g : GraphState) :
    updateLeadEdges fs g [] = none := by
  simp only [updateLeadEdges, updateLeadEdgesGo_nil]
  have hb : leadEdgeLoopBound ([] : List Nat).length ≠ 0 := by decide
  rw [if_neg hb]

/-- C4, amended: when the shortest-path search completes without reaching the
goal region, computeLead leaves the lead empty - lead_.clear() at entry has
already discarded the prior lead, so the prior lead is not preserved - and the
subsequent per-edge update loop, whose unsigned bound lead_.size()-1
underflows on the empty lead, attempts an out-of-bounds read of lead[0]
instead of touching consecutive pairs of a lead. -/
theorem c4_failed_lead (fs : List EdgeCostFactorFn) (g : GraphState)
    (priorLead : List Nat) (startRegion goalRegion : Nat)
    (hne : startRegion ≠ goalRegion) :
    computeLead fs g priorLead startRegion goalRegion none = ([], none) := by
  simp only [computeLead, if_neg hne]
  rw [updateLeadEdges_nil]

/-- C4 counterexample: with prior lead [0, 1] and a failed shortest-path
search from region 0 to region 2, the resulting lead is empty - not the prior
lead [0, 1] the claim says is left in place - and the per-edge update step
fails on an out-of-bounds read rather than touching consecutive pairs. -/
theorem c4_counterexample :
    computeLead setupEdgeCostFactors exGraph [0, 1] 0 2 none = ([], none) ∧
    ([] : List Nat) ≠ [0, 1] := by
  constructor
  · simp only [computeLead, if_neg (by decide : (0 : Nat) ≠ 2)]
    rw [updateLeadEdges_nil]
  · decide

/-- C4 witness: the amended statement instantiated at start region 0 and goal
region 2 on exGraph. -/
theorem c4_witness :
    computeLead setupEdgeCostFactors exGraph [0, 1] 0 2 none = ([], none) :=
  c4_failed_lead setupEdgeCostFactors exGraph [0, 1] 0 2 (by decide)

theorem length_bumpAt (l : List Nat) (i : Nat) : (bumpAt l i).length = l.length := by
  simp [bumpAt]

theorem getD_bumpAt_self (l : List Nat) (i : Nat) (hi : i < l.length) :
    (bumpAt l i).getD i 0 = l.getD i 0 + 1 := by
  simp [bumpAt, List.getD_eq_getElem?_getD, List.getElem?_set_self', hi,
    List.getElem?_eq_getElem hi]

theorem getD_bumpAt_ne (l : List Nat) (i j : Nat) (hj : j ≠ i) :
    (bumpAt l i).getD j 0 = l.getD j 0 := by
  simp [bumpAt, List.getD_eq_getElem?_getD, List.getElem?_set_ne (Ne.symm hj)]

theorem getD_replicate_zero (n i : Nat) : (List.replicate n (0 : Nat)).getD i 0 = 0 := by
  rw [List.getD_eq_getElem?_getD, List.getElem?_replicate]
  split <;> rfl

/-- The counting pass of setupRegionEstimates computes, per region, the number
of valid samples and the total number of samples that landed there. -/
theorem sampleTallyGo_getD :
    ∀ (samples : List (Nat × Bool)) (v t : List Nat) (i : Nat),
    i < v.length → i < t.length →
    (∀ s ∈ samples, s.1 < v.length ∧ s.1 < t.length) →
    (sampleTallyGo samples (v, t)).1.getD i 0 = v.getD i 0 + countValid samples i ∧
    (sampleTallyGo samples (v, t)).2.getD i 0 = t.getD i 0 + countTotal samples i := by
  intro samples
  induction samples with
  | nil =>
    intro v t i _ _ _
    simp [sampleTallyGo, countValid, countTotal]
  | cons s rest ih =>
    intro v t i hiv hit hs
    have hsv : s.1 < v.length := (hs s (List.mem_cons_self s rest)).1
    have hst : s.1 < t.length := (hs s (List.mem_cons_self s rest)).2
    have hrest : ∀ x ∈ rest, x.1 < (if s.2 then bumpAt v s.1 else v).length ∧
        x.1 < (bumpAt t s.1).length := by
      intro x hx
      have := hs x (List.mem_cons_of_mem s hx)
      constructor
      · cases s.2 <;> simpa [length_bumpAt] using this.1
      · simpa [length_bumpAt] using this.2
    have hiv2 : i < (if s.2 then bumpAt v s.1 else v).length := by
      cases s.2 <;> simpa [length_bumpAt] using hiv
    have hit2 : i < (bumpAt t s.1).length := by simpa [length_bumpAt] using hit
    have hstep : sampleTallyGo (s :: rest) (v, t) =
        sampleTallyGo rest (if s.2 then bumpAt v s.1 else v, bumpAt t s.1) := rfl
    rw [hstep]
    obtain ⟨ihv, iht⟩ := ih (if s.2 then bumpAt v s.1 else v) (bumpAt t s.1) i hiv2 hit2 hrest
    rw [ihv, iht]
    constructor
    · by_cases hsi : s.1 = i
      · cases hsb : s.2 with
        | false =>
          rw [if_neg Bool.false_ne_true]
          have : countValid (s :: rest) i = countValid rest i := by
            simp [countValid, List.filter_cons, hsb]
          rw [this]
        | true =>
          rw [if_pos rfl]
          rw [hsi, getD_bumpAt_self v i (hsi ▸ hsv)]
          have : countValid (s :: rest) i = countValid rest i + 1 := by
            simp [countValid, List.filter_cons, hsb, hsi]
          rw [this]
          omega
      · cases hsb : s.2 with
        | false =>
          rw [if_neg Bool.false_ne_true]
          have : countValid (s :: rest) i = countValid rest i := by
            simp [countValid, List.filter_cons, hsb]
          rw [this]
        | true =>
          rw [if_pos rfl]
          rw [getD_bumpAt_ne v s.1 i (fun hc => hsi hc.symm)]
          have : countValid (s :: rest) i = countValid rest i := by
            simp [countValid, List.filter_cons, hsi]
          rw [this]
    · by_cases hsi : s.1 = i
      · rw [hsi, getD_bumpAt_self t i (hsi ▸ hst)]
        have : countTotal (s :: rest) i = countTotal rest i + 1 := by
          simp [countTotal, List.filter_cons, hsi]
        rw [this]
        omega
      · rw [getD_bumpAt_ne t s.1 i (fun hc => hsi hc.symm)]
        have : countTotal (s :: rest) i = countTotal rest i := by
          simp [countTotal, List.filter_cons, hsi]
        rw [this]

/-- The tally vectors of setupRegionEstimates hold exactly the per-region
valid/total sample counts. -/
theorem sampleTally_getD (n : Nat) (samples : List (Nat × Bool)) (i : Nat)
    (hi : i < n) (hs : ∀ s ∈ samples, s.1 < n) :
    (sampleTally n samples).1.getD i 0 = countValid samples i ∧
    (sampleTally n samples).2.getD i 0 = countTotal samples i := by
  have h := sampleTallyGo_getD samples (List.replicate n 0) (List.replicate n 0) i
    (by simpa using hi) (by simpa using hi)
    (fun s hsm => ⟨by simpa using hs s hsm, by simpa using hs s hsm⟩)
  rw [sampleTally]
  rw [h.1, h.2]
  simp [getD_replicate_zero]

theorem regions_length_estimateStep (volumes : Nat → ℚ) (nv nt : List Nat)
    (g : GraphState) (i : Nat) :
    (estimateStep volumes nv nt g i).regions.length = g.regions.length := by
  simp [estimateStep, regions_setRegion]

theorem foldl_estimate_length (volumes : Nat → ℚ) (nv nt : List Nat) :
    ∀ (l : List Nat) (g : GraphState),
    (l.foldl (estimateStep volumes nv nt) g).regions.length = g.regions.length := by
  intro l
  induction l with
  | nil => intro g; rfl
  | cons x rest ih =>
    intro g
    rw [List.foldl_cons, ih, regions_length_estimateStep]

theorem foldl_estimate_untouched (volumes : Nat → ℚ) (nv nt : List Nat) :
    ∀ (l : List Nat) (g : GraphState) (j : Nat), (∀ x ∈ l, x ≠ j) →
    regionAt (l.foldl (estimateStep volumes nv nt) g) j = regionAt g j := by
  intro l
  induction l with
  | nil => intro g j _; rfl
  | cons x rest ih =>
    intro g j hl
    rw [List.foldl_cons, ih _ j (fun y hy => hl y (List.mem_cons_of_mem x hy)),
      estimateStep, regionAt_setRegion_ne _ _ _ _
        (fun hc => hl x (List.mem_cons_self x rest) hc.symm)]

/-- The second loop of setupRegionEstimates writes each region exactly once:
region i ends up as estimateRegion applied to its original payload. -/
theorem foldl_range_estimate (volumes : Nat → ℚ) (nv nt : List Nat) :
    ∀ (n : Nat) (g : GraphState) (i : Nat), i < n → i < g.regions.length →
    regionAt ((List.range n).foldl (estimateStep volumes nv nt) g) i =
      estimateRegion volumes nv nt i (regionAt g i) := by
  intro n
  induction n with
  | zero => intro g i hi _; exact absurd hi (Nat.not_lt_zero i)
  | succ n ih =>
    intro g i hi hlen
    rw [List.range_succ, List.foldl_append, List.foldl_cons, List.foldl_nil]
    by_cases hin : i = n
    · subst hin
      have huntouched : regionAt ((List.range i).foldl (estimateStep volumes nv nt) g) i =
          regionAt g i :=
        foldl_estimate_untouched volumes nv nt (List.range i) g i
          (fun x hx => Nat.ne_of_lt (List.mem_range.mp hx))
      rw [estimateStep, huntouched, regionAt_setRegion_self _ _ _
        (by rw [foldl_estimate_length]; exact hlen)]
    · have hi2 : i < n := Nat.lt_of_le_of_ne (Nat.le_of_lt_succ hi) hin
      rw [estimateStep, regionAt_setRegion_ne _ _ _ _ hin, ih g i hi2 hlen]

/-- DBL_EPSILON is positive. -/
theorem eps_pos : 0 < eps := by norm_num [eps]

theorem if_lt_max (a b : ℚ) : (if a < b then b else a) = max a b := by
  by_cases h : a < b
  · rw [if_pos h, max_eq_right h.le]
  · rw [if_neg h, max_eq_left (le_of_not_lt h)]

/-- The weight updateRegion writes, in terms of the fields of its result. -/
theorem updateRegion_weight_formula (x : Region) : (updateRegion x).weight =
    ((updateRegion x).freeVolume * (updateRegion x).freeVolume *
     (updateRegion x).freeVolume * (updateRegion x).freeVolume) /
    ((1 + ((updateRegion x).covGridCells.length : ℚ)) *
     (1 + ((updateRegion x).numSelections : ℚ) * ((updateRegion x).numSelections : ℚ))) := by
  simp [updateRegion]

/-- A region whose freeVolume ends positive gets a positive weight from
updateRegion. -/
theorem updateRegion_weight_pos (x : Region)
    (hx : 0 < (updateRegion x).freeVolume) : 0 < (updateRegion x).weight := by
  rw [updateRegion_weight_formula x]
  apply div_pos
  · exact mul_pos (mul_pos (mul_pos hx hx) hx) hx
  · apply mul_pos
    · have h1 : (0 : ℚ) ≤ ((updateRegion x).covGridCells.length : ℚ) := Nat.cast_nonneg _
      linarith
    · have h2 : (0 : ℚ) ≤ ((updateRegion x).numSelections : ℚ) *
          ((updateRegion x).numSelections : ℚ) :=
        mul_nonneg (Nat.cast_nonneg _) (Nat.cast_nonneg _)
      linarith

/-- What one pass of estimateRegion establishes for the re-estimated region. -/
theorem estimateRegion_spec (volumes : Nat → ℚ) (nv nt : List Nat) (i : Nat)
    (r : Region) :
    (estimateRegion volumes nv nt i r).volume = volumes i ∧
    (estimateRegion volumes nv nt i r).percentValidCells =
      (if nt.getD i 0 = 0 then 1 else (nv.getD i 0 : ℚ) / (nt.getD i 0 : ℚ)) ∧
    (estimateRegion volumes nv nt i r).freeVolume =
      max ((estimateRegion volumes nv nt i r).percentValidCells *
        (estimateRegion volumes nv nt i r).volume) eps ∧
    ((estimateRegion volumes nv nt i r).percentValidCells *
        (estimateRegion volumes nv nt i r).volume = 0 →
      (estimateRegion volumes nv nt i r).freeVolume = eps ∧
      0 < (estimateRegion volumes nv nt i r).weight) := by
  have hvol : (estimateRegion volumes nv nt i r).volume = volumes i := by
    simp [estimateRegion, updateRegion]
  have hpvc : (estimateRegion volumes nv nt i r).percentValidCells =
      (if nt.getD i 0 = 0 then 1 else (nv.getD i 0 : ℚ) / (nt.getD i 0 : ℚ)) := by
    simp [estimateRegion, updateRegion]
  have hfv : (estimateRegion volumes nv nt i r).freeVolume =
      (if (estimateRegion volumes nv nt i r).percentValidCells * volumes i < eps
       then eps else (estimateRegion volumes nv nt i r).percentValidCells * volumes i) := by
    rw [hpvc]
    simp [estimateRegion, updateRegion]
  refine ⟨hvol, hpvc, ?_, ?_⟩
  · rw [hfv, hvol, if_lt_max]
  · intro h0
    rw [hvol] at h0
    have hfe : (estimateRegion volumes nv nt i r).freeVolume = eps := by
      rw [hfv, h0, if_pos eps_pos]
    refine ⟨hfe, ?_⟩
    have hpos : 0 < (estimateRegion volumes nv nt i r).freeVolume := by
      rw [hfe]; exact eps_pos
    revert hpos
    simp only [estimateRegion]
    exact updateRegion_weight_pos _

/-- C5, confirmed: setupRegionEstimates gives every region its decomposition
volume, percentValidCells = valid/total over the samples that landed in it
(1.0 when none did), and freeVolume = max(percentValidCells * volume, eps);
a region whose sampled free volume is exactly zero receives freeVolume = eps
and a (finite) positive weight. -/
theorem c5_setup_region_estimates (g : GraphState) (volumes : Nat → ℚ)
    (samples : List (Nat × Bool)) (i : Nat) (hi : i < g.regions.length)
    (hs : ∀ s ∈ samples, s.1 < g.regions.length) :
    (regionAt (setupRegionEstimates g volumes samples) i).volume = volumes i ∧
    (regionAt (setupRegionEstimates g volumes samples) i).percentValidCells =
      (if countTotal samples i = 0 then 1
       else (countValid samples i : ℚ) / (countTotal samples i : ℚ)) ∧
    (regionAt (setupRegionEstimates g volumes samples) i).freeVolume =
      max ((regionAt (setupRegionEstimates g volumes samples) i).percentValidCells *
        (regionAt (setupRegionEstimates g volumes samples) i).volume) eps ∧
    ((regionAt (setupRegionEstimates g volumes samples) i).percentValidCells *
        (regionAt (setupRegionEstimates g volumes samples) i).volume = 0 →
      (regionAt (setupRegionEstimates g volumes samples) i).freeVolume = eps ∧
      0 < (regionAt (setupRegionEstimates g volumes samples) i).weight) := by
  obtain ⟨hcv, hct⟩ := sampleTally_getD g.regions.length samples i hi hs
  have hfold : regionAt (setupRegionEstimates g volumes samples) i =
      estimateRegion volumes (sampleTally g.regions.length samples).1
        (sampleTally g.regions.length samples).2 i (regionAt g i) := by
    simp only [setupRegionEstimates]
    exact foldl_range_estimate volumes _ _ g.regions.length g i hi hi
  obtain ⟨hvol, hpvc, hmax, himp⟩ := estimateRegion_spec volumes
    (sampleTally g.regions.length samples).1 (sampleTally g.regions.length samples).2
    i (regionAt g i)
  rw [hcv, hct] at hpvc
  rw [hfold]
  exact ⟨hvol, hpvc, hmax, himp⟩

/-- C5 witness: on exGraph with unit volumes and two invalid samples landing
in region 0, the region's sampled free volume is zero, so it receives
freeVolume = eps and a positive weight. -/
theorem c5_witness :
    (regionAt (setupRegionEstimates exGraph (fun _ => 1) [(0, false), (0, false)]) 0).volume = 1 ∧
    (regionAt (setupRegionEstimates exGraph (fun _ => 1) [(0, false), (0, false)]) 0).freeVolume = eps ∧
    0 < (regionAt (setupRegionEstimates exGraph (fun _ => 1) [(0, false), (0, false)]) 0).weight := by
  obtain ⟨hv, hp, hf, himp⟩ := c5_setup_region_estimates exGraph (fun _ => 1)
    [(0, false), (0, false)] 0 (by decide) (by decide)
  have hct : countTotal [(0, false), (0, false)] 0 = 2 := by decide
  have hcv : countValid [(0, false), (0, false)] 0 = 0 := by decide
  have h0 : (regionAt (setupRegionEstimates exGraph (fun _ => 1) [(0, false), (0, false)]) 0).percentValidCells *
      (regionAt (setupRegionEstimates exGraph (fun _ => 1) [(0, false), (0, false)]) 0).volume = 0 := by
    rw [hp, hv, hct, hcv]
    norm_num
  obtain ⟨hfe, hw⟩ := himp h0
  exact ⟨hv, hfe, hw⟩

/-- C8, confirmed: computeAvailableRegions rebuilds availDist from scratch,
walking the lead from the goal end toward index 0 (its keys form a sublist of
the reversed lead): every entry is a lead region with a non-empty motions
list, recorded with that region's weight; the first entry is the
closest-to-goal region with motions, which is therefore always included; and
the result is non-empty iff some region on the lead has at least one motion.
The walk consumes one uniform draw after each addition and stops when the
draw reaches probKeepAddingToAvail, i.e. with probability
1 - probKeepAddingToAvail per addition. -/
theorem c8_compute_available_regions (g : GraphState) (pk : ℚ)
    (draws : Nat → ℚ) (lead : List Nat) :
    (∀ p ∈ computeAvailableRegions g pk draws lead,
       p.1 ∈ lead ∧ (regionAt g p.1).motions ≠ [] ∧
       p.2 = (regionAt g p.1).weight) ∧
    List.Sublist ((computeAvailableRegions g pk draws lead).map Prod.fst)
      lead.reverse ∧
    (computeAvailableRegions g pk draws lead).head?.map Prod.fst =
      lead.reverse.find? (fun r => !(regionAt g r).motions.isEmpty) ∧
    (computeAvailableRegions g pk draws lead ≠ [] ↔
      ∃ r ∈ lead, (regionAt g r).motions ≠ []) := by
  refine ⟨?_, ?_, ?_, ?_⟩
  · intro p hp
    obtain ⟨h1, h2, h3⟩ := availWalk_entries g pk draws lead.reverse 0 p hp
    exact ⟨List.mem_reverse.mp h1, h2, h3⟩
  · exact availWalk_keys_sublist g pk draws lead.reverse 0
  · exact availWalk_head g pk draws lead.reverse 0
  · rw [ne_eq, computeAvailableRegions, availWalk_eq_nil_iff g pk draws lead.reverse 0]
    push_neg
    constructor
    · rintro ⟨r, hr, hne⟩
      exact ⟨r, List.mem_reverse.mp hr, hne⟩
    · rintro ⟨r, hr, hne⟩
      exact ⟨r, List.mem_reverse.mpr hr, hne⟩

/-- C8 witness: on exGraph with lead [0, 1], where only region 1 has a motion,
the availability walk produces exactly the closest-to-goal region 1 first,
with region 1's weight, and is non-empty. -/
theorem c8_witness :
    ((1 : Nat) ∈ [0, 1] ∧ (regionAt exGraph 1).motions ≠ [] ∧
      (1 : ℚ) = (regionAt exGraph 1).weight) ∧
    (computeAvailableRegions exGraph 1 (fun _ => 0) [0, 1]).head?.map Prod.fst =
      [1, 0].find? (fun r => !(regionAt exGraph r).motions.isEmpty) ∧
    computeAvailableRegions exGraph 1 (fun _ => 0) [0, 1] ≠ [] := by
  obtain ⟨hall, hsub, hhead, hiff⟩ :=
    c8_compute_available_regions exGraph 1 (fun _ => 0) [0, 1]
  refine ⟨hall (1, 1) (by decide), ?_, ?_⟩
  · exact hhead
  · exact hiff.mpr ⟨1, by decide, by decide⟩

theorem insertSet_ne_nil (l : List Nat) (x : Nat) : insertSet l x ≠ [] := by
  rw [insertSet]
  split
  · intro h
    rename_i hx
    rw [h] at hx
    exact absurd hx (List.not_mem_nil x)
  · simp

theorem seedStartStates_sr_preserved :
    ∀ (infos : List (Nat × Nat)) (g : GraphState) (sr : List Nat) (nm : Nat),
    sr ≠ [] → (seedStartStates g sr nm infos).2.1 ≠ [] := by
  intro infos
  induction infos with
  | nil => intro g sr nm h; exact h
  | cons info rest ih =>
    intro g sr nm _
    exact ih _ _ _ (insertSet_ne_nil sr info.1)

/-- Seeding at least one valid start state leaves startRegions_ non-empty. -/
theorem seedStartStates_ne_nil (infos : List (Nat × Nat)) (g : GraphState)
    (nm : Nat) (h : infos ≠ []) : (seedStartStates g [] nm infos).2.1 ≠ [] := by
  cases infos with
  | nil => exact absurd rfl h
  | cons info rest =>
    exact seedStartStates_sr_preserved rest _ _ _ (insertSet_ne_nil [] info.1)

/-- C9, confirmed: solve returns false with no solution path added - the early
returns at lines 87 and 98 precede the addSolutionPath call at line 195 - and
logs an error, when there are no valid start states, and likewise when
goalRegions_ is empty and no valid goal state can be sampled; the error return
leaves the seeded planner state in place, so the caller may retry after adding
states. -/
theorem c9_solve_early_failures (g : GraphState) (goalSample : Option Nat)
    (priorGoalRegions : List Nat) :
    (∀ startInfos : List (Nat × Nat), startInfos = [] →
      solveStartPhase g startInfos goalSample priorGoalRegions =
        .earlyReturn false false "There are no valid start states" g []) ∧
    (∀ startInfos : List (Nat × Nat), startInfos ≠ [] →
      solveStartPhase g startInfos none [] =
        .earlyReturn false false "Unable to sample a valid goal state"
          (seedStartStates g [] 0 startInfos).1
          (seedStartStates g [] 0 startInfos).2.1) := by
  constructor
  · intro startInfos h
    subst h
    rfl
  · intro startInfos h
    have hne := seedStartStates_ne_nil startInfos g 0 h
    have hfalse : (seedStartStates g [] 0 startInfos).2.1.isEmpty = false := by
      simpa [List.isEmpty_iff] using hne
    simp [solveStartPhase, hfalse]

/-- C9 witness: both failure branches instantiated concretely on exGraph. -/
theorem c9_witness :
    solveStartPhase exGraph [] (some 1) [] =
      .earlyReturn false false "There are no valid start states" exGraph [] ∧
    solveStartPhase exGraph [(0, 5)] none [] =
      .earlyReturn false false "Unable to sample a valid goal state"
        (seedStartStates exGraph [] 0 [(0, 5)]).1
        (seedStartStates exGraph [] 0 [(0, 5)]).2.1 :=
  ⟨(c9_solve_early_failures exGraph (some 1) []).1 [] rfl,
   (c9_solve_early_failures exGraph none []).2 [(0, 5)] (by decide)⟩

/-- C10, confirmed: selectRegion only bumps the sampled region's numSelections
and recomputes its alpha and weight; availDist itself, every other region,
all adjacencies and the rest of the loop state are unchanged, so every entry
recorded in availDist - including its weight - survives the selection even
though the sampled region's own weight was just recomputed. -/
theorem c10_select_region_frame (st : LoopState) (u : ℚ) (idx : Nat)
    (st' : LoopState) (h : selectRegion st u = some (idx, st')) :
    st'.availDist = st.availDist ∧
    st'.graph.adjacencies = st.graph.adjacencies ∧
    st'.solved = st.solved ∧ st'.solution = st.solution ∧
    st'.goalDist = st.goalDist ∧ st'.numMotions = st.numMotions ∧
    st'.improved = st.improved ∧
    (∀ j, j ≠ idx → regionAt st'.graph j = regionAt st.graph j) ∧
    (idx < st.graph.regions.length →
      (regionAt st'.graph idx).index = (regionAt st.graph idx).index ∧
      (regionAt st'.graph idx).volume = (regionAt st.graph idx).volume ∧
      (regionAt st'.graph idx).percentValidCells =
        (regionAt st.graph idx).percentValidCells ∧
      (regionAt st'.graph idx).freeVolume = (regionAt st.graph idx).freeVolume ∧
      (regionAt st'.graph idx).covGridCells = (regionAt st.graph idx).covGridCells ∧
      (regionAt st'.graph idx).motions = (regionAt st.graph idx).motions ∧
      (regionAt st'.graph idx).numSelections =
        (regionAt st.graph idx).numSelections + 1) ∧
    (∀ p ∈ st.availDist, p ∈ st'.availDist) := by
  simp only [selectRegion, Option.map_eq_some'] at h
  obtain ⟨idx0, hds, hpair⟩ := h
  rw [Prod.mk.injEq] at hpair
  obtain ⟨h1, h2⟩ := hpair
  subst h1
  subst h2
  refine ⟨rfl, rfl, rfl, rfl, rfl, rfl, rfl, ?_, ?_, fun p hp => hp⟩
  · intro j hj
    exact regionAt_setRegion_ne _ _ _ _ hj
  · intro hlt
    dsimp only
    rw [regionAt_setRegion_self _ _ _ hlt]
    obtain ⟨ha, hb, hc, hd, he, hf, hg⟩ := updateRegion_fields
      { regionAt st.graph idx0 with
        numSelections := (regionAt st.graph idx0).numSelections + 1 }
    exact ⟨ha, hb, hc, hd, hf, hg, he⟩

/-- C10 witness: selecting from exState's availability distribution leaves
availDist and the adjacency map unchanged. -/
theorem c10_witness :
    (selectRegion exState 0).map (fun p => p.2.availDist) = some exState.availDist ∧
    (selectRegion exState 0).map (fun p => p.2.graph.adjacencies) =
      some exState.graph.adjacencies := by
  have hav : exState.availDist = [(1, (1 : ℚ))] := by decide
  have hds : distSample exState.availDist 0 = some 1 := by
    rw [hav]
    simp only [distSample, distSampleGo, List.map_cons, List.map_nil,
      List.sum_cons, List.sum_nil]
    norm_num
  cases hsel : selectRegion exState 0 with
  | none =>
    rw [selectRegion, hds] at hsel
    simp at hsel
  | some p =>
    obtain ⟨hav', hadj', _⟩ := c10_select_region_frame exState 0 p.1 p.2 hsel
    simp only [Option.map_some', Option.some_inj]
    exact ⟨by rw [hav'], by rw [hadj']⟩

end Syclop
